import Mathlib

/-!
Verification of the cosmology module of GWInferno (gwinferno/cosmology.py).

The module implements a flat-FLRW distance calculator: a `Cosmology` object
holds exact density parameters and a growing sample table of
(redshift z, comoving distance Dc, comoving volume Vc) triples, extended by
trapezoidal integration and queried by linear interpolation.

Embedding choices:
* the constructor arguments and the derived parameter fields are rationals
  (the Python code performs only field arithmetic and an exact equality test
  on them), while redshifts, distances and volumes are real numbers;
* Python float division by zero raises, so the constructor is modelled as an
  `Except` value that fails when `Ho = 0` (the `c_over_Ho` computation) and
  when the flatness assertion fires;
* the `-inf` defaults of `extend`'s bounds are modelled by `EReal` with `⊥`
  as the default, and the unbounded `while` loop is modelled by a
  fuel-indexed recursion (the loop need not terminate for arbitrary bounds);
* `jnp.interp` is modelled by `interp` below: flat clamping outside the
  knot range and linear interpolation inside it.
-/

noncomputable section

/-- Speed of light in SI units, from the source header. -/
def C_SI : ℚ := 299792458

/-- Parsec in SI units, from the source header. -/
def PC_SI : ℚ := 3.085677581491367e16

/-- Megaparsec in SI units. -/
def MPC_SI : ℚ := PC_SI * 1e6

/-- Speed of light in CGS units. -/
def C_CGS : ℚ := C_SI * 1e2

/-- Parsec in CGS units. -/
def PC_CGS : ℚ := PC_SI * 1e2

/-- Megaparsec in CGS units. -/
def MPC_CGS : ℚ := MPC_SI * 1e2

/-- Default integration step `DEFAULT_DZ = 1e-3`. -/
def DEFAULT_DZ : ℝ := 1e-3

/-- State of a `Cosmology` object: the parameter fields set by `__init__`
together with the three parallel sample arrays `z`, `Dc`, `Vc`. -/
structure Cosmology where
  Ho : ℚ
  c_over_Ho : ℚ
  unit_mod : ℚ
  OmegaMatter : ℚ
  OmegaRadiation : ℚ
  OmegaLambda : ℚ
  OmegaKappa : ℚ
  z : List ℝ
  Dc : List ℝ
  Vc : List ℝ

/-- The constructor `Cosmology.__init__`.  The division `C_CGS / self.Ho`
is performed before the flatness assertion, so `Ho = 0` raises a
`ZeroDivisionError` first; a nonzero derived curvature fires the
`AssertionError` of line 48.  Any other input produces the object with the
seed table `z = Dc = Vc = [0.0]`. -/
def Cosmology.init (Ho omega_matter omega_radiation omega_lambda : ℚ)
    (distance_unit : String := "mpc") : Except String Cosmology :=
  if Ho = 0 then
    .error "ZeroDivisionError: float division by zero"
  else
    if 1 - (omega_matter + omega_radiation + omega_lambda) = 0 then
      .ok { Ho := Ho
            c_over_Ho := C_CGS / Ho
            unit_mod := if distance_unit = "mpc" then MPC_CGS else 1
            OmegaMatter := omega_matter
            OmegaRadiation := omega_radiation
            OmegaLambda := omega_lambda
            OmegaKappa := 1 - (omega_matter + omega_radiation + omega_lambda)
            z := [0]
            Dc := [0]
            Vc := [0] }
    else
      .error "AssertionError: we only implement flat cosmologies! OmegaKappa must be 0"

/-- Head of a real list, defaulting to 0 (arrays in the source are never
empty, the default is junk). -/
def headD0 (l : List ℝ) : ℝ := l.head?.getD 0

/-- Last element of a real list, defaulting to 0 (models `arr[-1]` on the
never-empty sample arrays). -/
def lastD (l : List ℝ) : ℝ := l.getLast?.getD 0

/-- `jnp.interp(x, xs, fs)`: flat clamping left of the first knot and right
of the last knot, linear interpolation inside.  Junk value 0 on mismatched
or empty inputs (never produced by the source). -/
def interp (x : ℝ) : List ℝ → List ℝ → ℝ
  | [], _ => 0
  | [_], [] => 0
  | [_], f0 :: _ => f0
  | _ :: _ :: _, [] => 0
  | _ :: _ :: _, [_] => 0
  | x0 :: x1 :: xs, f0 :: f1 :: fs =>
      if x < x0 then f0
      else if x ≤ x1 then f0 + (f1 - f0) * (x - x0) / (x1 - x0)
      else interp x (x1 :: xs) (f1 :: fs)

/-- `z2E`: E(z) = sqrt(OmegaLambda + OmegaKappa*(1+z)^2 + OmegaMatter*(1+z)^3
+ OmegaRadiation*(1+z)^4). -/
def Cosmology.z2E (c : Cosmology) (z : ℝ) : ℝ :=
  let one_plus_z : ℝ := 1 + z
  Real.sqrt ((c.OmegaLambda : ℝ) + (c.OmegaKappa : ℝ) * one_plus_z ^ 2
    + (c.OmegaMatter : ℝ) * one_plus_z ^ 3 + (c.OmegaRadiation : ℝ) * one_plus_z ^ 4)

/-- `dDcdz`: (c/Ho)/E(z), divided by `MPC_CGS` when the `mpc` flag is set. -/
def Cosmology.dDcdz (c : Cosmology) (z : ℝ) (mpc : Bool := false) : ℝ :=
  let dDc := (c.c_over_Ho : ℝ) / c.z2E z
  if mpc then dDc / (MPC_CGS : ℝ) else dDc

/-- `z2Dc`: linear interpolation of `Dc` against `z` over the table. -/
def Cosmology.z2Dc (c : Cosmology) (z : ℝ) : ℝ :=
  interp z c.z c.Dc

/-- `dVcdz`: 4·π·Dc²·dDc/dz, where a zero (falsy) `Dc` argument falls back
to interpolating the table, exactly as `jnp.where(Dc, Dc, self.z2Dc(z))`. -/
def Cosmology.dVcdz (c : Cosmology) (z : ℝ) (Dc : ℝ := 0) : ℝ :=
  let Dc' := if Dc = 0 then c.z2Dc z else Dc
  4 * Real.pi * Dc' ^ 2 * c.dDcdz z

/-- `logdVcdz`: log(4π) + 2·log Dc + log(dDc/dz) − 3·log(unit_mod), with the
same falsy fallback on the `Dc` argument. -/
def Cosmology.logdVcdz (c : Cosmology) (z : ℝ) (Dc : ℝ := 0) : ℝ :=
  let Dc' := if Dc = 0 then c.z2Dc z else Dc
  Real.log (4 * Real.pi) + 2 * Real.log Dc' + Real.log (c.dDcdz z)
    - 3 * Real.log (c.unit_mod : ℝ)

/-- The derived luminosity-distance array: `self.Dc * (1 + self.z)`. -/
def Cosmology.DL (c : Cosmology) : List ℝ :=
  List.zipWith (fun d zz => d * (1 + zz)) c.Dc c.z

/-- `DL2z`: convert the query to the internal base unit, then interpolate
`z` against the `DL` array. -/
def Cosmology.DL2z (c : Cosmology) (DL : ℝ) : ℝ :=
  let DL_cgs := DL * (c.unit_mod : ℝ)
  interp DL_cgs c.DL c.z

/-- `z2DL`: interpolate `DL` against `z`, then convert to the output unit. -/
def Cosmology.z2DL (c : Cosmology) (z : ℝ) : ℝ :=
  interp z c.z c.DL / (c.unit_mod : ℝ)

open Classical in
/-- The body of `extend`'s `while` loop, indexed by fuel: while any of the
four strict lower-bound comparisons holds, perform one trapezoidal update,
append the new sample to the arrays, and recurse on the updated scalar state
`(z, Dc, Vc, DL)`. -/
def Cosmology.extendLoop (max_DL max_Dc max_z max_Vc : EReal) (dz : ℝ) :
    ℕ → Cosmology → ℝ → ℝ → ℝ → ℝ → Cosmology
  | 0, c, _, _, _, _ => c
  | fuel + 1, c, z, Dc, Vc, DL =>
      if (Dc : EReal) < max_Dc ∨ (DL : EReal) < max_DL ∨ (z : EReal) < max_z
          ∨ (Vc : EReal) < max_Vc then
        let dDcdz := c.dDcdz z
        let dVcdz := c.dVcdz z Dc
        let new_z := z + dz
        let new_dDcdz := c.dDcdz new_z
        let new_Dc := Dc + 0.5 * (dDcdz + new_dDcdz) * dz
        let new_dVcdz := c.dVcdz new_z new_Dc
        let new_Vc := Vc + 0.5 * (dVcdz + new_dVcdz) * dz
        let new_DL := (1 + new_z) * new_Dc
        let c' : Cosmology :=
          { c with z := c.z ++ [new_z], Dc := c.Dc ++ [new_Dc], Vc := c.Vc ++ [new_Vc] }
        Cosmology.extendLoop max_DL max_Dc max_z max_Vc dz fuel c' new_z new_Dc new_Vc new_DL
      else c

/-- `extend`: read the last sample, derive its `DL`, and run the integration
loop (with the given fuel bounding the number of iterations; every bound
defaults to `-inf` and the step to `DEFAULT_DZ`). -/
def Cosmology.extend (c : Cosmology) (fuel : ℕ)
    (max_DL : EReal := ⊥) (max_Dc : EReal := ⊥) (max_z : EReal := ⊥)
    (max_Vc : EReal := ⊥) (dz : ℝ := DEFAULT_DZ) : Cosmology :=
  let z := lastD c.z
  let Dc := lastD c.Dc
  let Vc := lastD c.Vc
  let DL := Dc * (1 + z)
  Cosmology.extendLoop max_DL max_Dc max_z max_Vc dz fuel c z Dc Vc DL

/-- A concrete flat matter-dominated cosmology used to instantiate the
theorems: the object built by `Cosmology(C_CGS, 1, 0, 0)` up to the
recorded value of `c_over_Ho = C_CGS / C_CGS = 1`. -/
def flatMatter : Cosmology :=
  { Ho := C_CGS
    c_over_Ho := 1
    unit_mod := MPC_CGS
    OmegaMatter := 1
    OmegaRadiation := 0
    OmegaLambda := 0
    OmegaKappa := 0
    z := [0]
    Dc := [0]
    Vc := [0] }

/-- Table invariant maintained by construction and `extend`: the three
parallel arrays are seeded at 0, have equal lengths, `z` is strictly
increasing, `Dc` and `Vc` are non-decreasing, and the stored `c_over_Ho`
parameter is non-negative. -/
def Cosmology.Inv (c : Cosmology) : Prop :=
  c.z.head? = some 0 ∧ c.Dc.head? = some 0 ∧ c.Vc.head? = some 0 ∧
  List.Chain' (· < ·) c.z ∧ List.Chain' (· ≤ ·) c.Dc ∧ List.Chain' (· ≤ ·) c.Vc ∧
  c.z.length = c.Dc.length ∧ c.z.length = c.Vc.length ∧
  0 ≤ c.c_over_Ho

/-- The objects reachable from a valid construction (`Ho > 0`, non-negative
density fractions, accepted by the constructor) by finitely many `extend`
calls with a positive step. -/
inductive Reachable : Cosmology → Prop where
  | init (Ho m r l : ℚ) (u : String) (c : Cosmology) (hHo : 0 < Ho)
      (hm : 0 ≤ m) (hr : 0 ≤ r) (hl : 0 ≤ l)
      (h : Cosmology.init Ho m r l u = .ok c) : Reachable c
  | extend (c : Cosmology) (fuel : ℕ) (mDL mDc mz mVc : EReal) (dz : ℝ)
      (hdz : 0 < dz) (hc : Reachable c) :
      Reachable (Cosmology.extend c fuel mDL mDc mz mVc dz)

/-- Field values of a successfully constructed `Cosmology`. -/
theorem Cosmology.init_ok (Ho m r l : ℚ) (u : String) (c : Cosmology)
    (h : Cosmology.init Ho m r l u = .ok c) :
    c.Ho = Ho ∧ c.c_over_Ho = C_CGS / Ho ∧
    c.unit_mod = (if u = "mpc" then MPC_CGS else 1) ∧
    c.OmegaMatter = m ∧ c.OmegaRadiation = r ∧ c.OmegaLambda = l ∧
    c.OmegaKappa = 1 - (m + r + l) ∧ c.z = [0] ∧ c.Dc = [0] ∧ c.Vc = [0] ∧
    Ho ≠ 0 ∧ 1 - (m + r + l) = 0 := by
  unfold Cosmology.init at h
  split_ifs at h with h1 h2 h3 <;> cases h <;> simp_all

/-- The matter-dominated test object is exactly what the constructor builds
from `(C_CGS, 1, 0, 0, "mpc")`. -/
theorem init_flatMatter : Cosmology.init C_CGS 1 0 0 "mpc" = .ok flatMatter := by
  have h : C_CGS ≠ 0 := by norm_num [C_CGS, C_SI]
  unfold Cosmology.init
  rw [if_neg h, if_pos (by norm_num)]
  simp only [Except.ok.injEq]
  simp [flatMatter, Cosmology.mk.injEq, div_self h]

/-- When no stopping bound is strictly above the current state, the loop
exits immediately, whatever the fuel. -/
theorem extendLoop_noop (mDL mDc mz mVc : EReal) (dz : ℝ) (fuel : ℕ)
    (c : Cosmology) (z Dc Vc DL : ℝ)
    (h : ¬((Dc : EReal) < mDc ∨ (DL : EReal) < mDL ∨ (z : EReal) < mz
      ∨ (Vc : EReal) < mVc)) :
    Cosmology.extendLoop mDL mDc mz mVc dz fuel c z Dc Vc DL = c := by
  cases fuel with
  | zero => rfl
  | succ n =>
    simp only [Cosmology.extendLoop]
    rw [if_neg h]

/-- One unfolding of the `extend` loop when some bound is still unmet. -/
theorem extendLoop_step (c : Cosmology) (mDL mDc mz mVc : EReal)
    (dz z Dc Vc DL : ℝ) (fuel : ℕ)
    (hcond : (Dc : EReal) < mDc ∨ (DL : EReal) < mDL ∨ (z : EReal) < mz
      ∨ (Vc : EReal) < mVc) :
    Cosmology.extendLoop mDL mDc mz mVc dz (fuel + 1) c z Dc Vc DL =
      Cosmology.extendLoop mDL mDc mz mVc dz fuel
        { c with
            z := c.z ++ [z + dz],
            Dc := c.Dc ++ [Dc + 0.5 * (c.dDcdz z + c.dDcdz (z + dz)) * dz],
            Vc := c.Vc ++ [Vc + 0.5 * (c.dVcdz z Dc
              + c.dVcdz (z + dz)
                  (Dc + 0.5 * (c.dDcdz z + c.dDcdz (z + dz)) * dz)) * dz] }
        (z + dz)
        (Dc + 0.5 * (c.dDcdz z + c.dDcdz (z + dz)) * dz)
        (Vc + 0.5 * (c.dVcdz z Dc
          + c.dVcdz (z + dz)
              (Dc + 0.5 * (c.dDcdz z + c.dDcdz (z + dz)) * dz)) * dz)
        ((1 + (z + dz)) * (Dc + 0.5 * (c.dDcdz z + c.dDcdz (z + dz)) * dz)) := by
  simp only [Cosmology.extendLoop]
  rw [if_pos hcond]

/-- Claim C2 (counterexample): with `Ho = -1` and flat density fractions the
constructor succeeds, although `Ho ≤ 0`; the claimed `Ho > 0` validation does
not exist in the code. -/
theorem claim_C2_cex :
    (Cosmology.init (-1) 1 0 0 "mpc").isOk = true ∧ (-1 : ℚ) ≤ 0 := by
  constructor
  · unfold Cosmology.init
    rw [if_neg (by norm_num), if_pos (by norm_num)]
    rfl
  · norm_num

/-- Claim C2 (amended): construction succeeds iff `Ho ≠ 0` and the derived
curvature `1 - (OmegaMatter + OmegaRadiation + OmegaLambda)` is exactly zero.
A nonzero curvature fails with the flatness assertion, `Ho = 0` fails with
the division error from `c_over_Ho`, and the sign of `Ho` is never
validated. -/
theorem claim_C2 (Ho m r l : ℚ) (u : String) :
    (Cosmology.init Ho m r l u).isOk = true ↔
      Ho ≠ 0 ∧ 1 - (m + r + l) = 0 := by
  unfold Cosmology.init
  split_ifs with h1 h2 h3 <;> simp_all [Except.isOk, Except.toBool]

/-- Claim C5: each iteration of the `extend` loop appends exactly one sample
to each array, computed by the trapezoidal update
`new_z = z + dz`, `new_Dc = Dc + 0.5*(dDcdz z + dDcdz new_z)*dz`,
`new_Vc = Vc + 0.5*(dVcdz z Dc + dVcdz new_z new_Dc)*dz`, where `dVcdz`
receives the explicit `Dc` values (the previous sample's `Dc` and the fresh
`new_Dc`), and the loop recurses on the new scalar state. -/
theorem claim_C5 (c : Cosmology) (mDL mDc mz mVc : EReal)
    (dz z Dc Vc DL : ℝ) (fuel : ℕ)
    (hcond : (Dc : EReal) < mDc ∨ (DL : EReal) < mDL ∨ (z : EReal) < mz
      ∨ (Vc : EReal) < mVc) :
    Cosmology.extendLoop mDL mDc mz mVc dz (fuel + 1) c z Dc Vc DL =
      Cosmology.extendLoop mDL mDc mz mVc dz fuel
        { c with
            z := c.z ++ [z + dz],
            Dc := c.Dc ++ [Dc + 0.5 * (c.dDcdz z + c.dDcdz (z + dz)) * dz],
            Vc := c.Vc ++ [Vc + 0.5 * (c.dVcdz z Dc
              + c.dVcdz (z + dz)
                  (Dc + 0.5 * (c.dDcdz z + c.dDcdz (z + dz)) * dz)) * dz] }
        (z + dz)
        (Dc + 0.5 * (c.dDcdz z + c.dDcdz (z + dz)) * dz)
        (Vc + 0.5 * (c.dVcdz z Dc
          + c.dVcdz (z + dz)
              (Dc + 0.5 * (c.dDcdz z + c.dDcdz (z + dz)) * dz)) * dz)
        ((1 + (z + dz)) * (Dc + 0.5 * (c.dDcdz z + c.dDcdz (z + dz)) * dz)) :=
  extendLoop_step c mDL mDc mz mVc dz z Dc Vc DL fuel hcond

/-- Claim C5 witness: one iteration on the fresh matter-dominated table with
`max_z = 1` and `dz = 1`. -/
theorem claim_C5_witness :
    Cosmology.extendLoop ⊥ ⊥ ((1 : ℝ) : EReal) ⊥ 1 1 flatMatter 0 0 0 0 =
      Cosmology.extendLoop ⊥ ⊥ ((1 : ℝ) : EReal) ⊥ 1 0
        { flatMatter with
            z := flatMatter.z ++ [0 + 1],
            Dc := flatMatter.Dc
              ++ [0 + 0.5 * (flatMatter.dDcdz 0 + flatMatter.dDcdz (0 + 1)) * 1],
            Vc := flatMatter.Vc
              ++ [0 + 0.5 * (flatMatter.dVcdz 0 0
                + flatMatter.dVcdz (0 + 1)
                    (0 + 0.5 * (flatMatter.dDcdz 0 + flatMatter.dDcdz (0 + 1)) * 1)) * 1] }
        (0 + 1)
        (0 + 0.5 * (flatMatter.dDcdz 0 + flatMatter.dDcdz (0 + 1)) * 1)
        (0 + 0.5 * (flatMatter.dVcdz 0 0
          + flatMatter.dVcdz (0 + 1)
              (0 + 0.5 * (flatMatter.dDcdz 0 + flatMatter.dDcdz (0 + 1)) * 1)) * 1)
        ((1 + (0 + 1)) * (0 + 0.5 * (flatMatter.dDcdz 0 + flatMatter.dDcdz (0 + 1)) * 1)) :=
  claim_C5 flatMatter ⊥ ⊥ ((1 : ℝ) : EReal) ⊥ 1 0 0 0 0 0
    (Or.inr (Or.inr (Or.inl (EReal.coe_lt_coe_iff.mpr zero_lt_one))))

/-- Claim C8: `z2E` computes
`sqrt(OmegaLambda + OmegaKappa*(1+z)^2 + OmegaMatter*(1+z)^3 + OmegaRadiation*(1+z)^4)`
for every parameter set, and for a matter-dominated cosmology built by the
constructor with `OmegaMatter = 1`, `OmegaRadiation = 0`, `OmegaLambda = 0`,
`z2E 0 = 1` exactly. -/
theorem claim_C8 (c c1 : Cosmology) (z : ℝ) (Ho : ℚ) (u : String)
    (h : Cosmology.init Ho 1 0 0 u = .ok c1) :
    c.z2E z = Real.sqrt ((c.OmegaLambda : ℝ) + (c.OmegaKappa : ℝ) * (1 + z) ^ 2
      + (c.OmegaMatter : ℝ) * (1 + z) ^ 3 + (c.OmegaRadiation : ℝ) * (1 + z) ^ 4)
    ∧ c1.z2E 0 = 1 := by
  constructor
  · rfl
  · obtain ⟨-, -, -, hm, hr, hl, hk, -⟩ := Cosmology.init_ok Ho 1 0 0 u c1 h
    simp only [Cosmology.z2E, hm, hr, hl, hk]
    norm_num

/-- Claim C8 witness: instantiated at the matter-dominated test object. -/
theorem claim_C8_witness :
    flatMatter.z2E 0 = Real.sqrt ((flatMatter.OmegaLambda : ℝ)
      + (flatMatter.OmegaKappa : ℝ) * (1 + 0) ^ 2
      + (flatMatter.OmegaMatter : ℝ) * (1 + 0) ^ 3
      + (flatMatter.OmegaRadiation : ℝ) * (1 + 0) ^ 4)
    ∧ flatMatter.z2E 0 = 1 :=
  claim_C8 flatMatter flatMatter 0 C_CGS "mpc" init_flatMatter

/-- Claim C10: calling `extend` with every bound left at its default `-inf`
performs zero iterations and returns the object unchanged, for any fuel and
step; more generally any combination of bounds at or below the current last
sample's values (each comparison is strict, so an exactly-met bound never
triggers an iteration) leaves the object unchanged. -/
theorem claim_C10 (c : Cosmology) :
    (∀ (fuel : ℕ) (dz : ℝ), Cosmology.extend c fuel ⊥ ⊥ ⊥ ⊥ dz = c) ∧
    (∀ (fuel : ℕ) (dz : ℝ) (mDL mDc mz mVc : EReal),
      mDc ≤ (lastD c.Dc : EReal) →
      mDL ≤ ((lastD c.Dc * (1 + lastD c.z) : ℝ) : EReal) →
      mz ≤ (lastD c.z : EReal) →
      mVc ≤ (lastD c.Vc : EReal) →
      Cosmology.extend c fuel mDL mDc mz mVc dz = c) := by
  constructor
  · intro fuel dz
    apply extendLoop_noop
    simp [not_lt_bot]
  · intro fuel dz mDL mDc mz mVc h1 h2 h3 h4
    apply extendLoop_noop
    push_neg
    exact ⟨h1, h2, h3, h4⟩

/-- Claim C10 witness: default-bound `extend` on the matter-dominated test
table, with bounds exactly equal to the current last sample in the second
part. -/
theorem claim_C10_witness :
    Cosmology.extend flatMatter 5 ⊥ ⊥ ⊥ ⊥ 1 = flatMatter ∧
    Cosmology.extend flatMatter 5 ⊥ ⊥ ((lastD flatMatter.z : ℝ) : EReal) ⊥ 1
      = flatMatter :=
  ⟨(claim_C10 flatMatter).1 5 1,
   (claim_C10 flatMatter).2 5 1 ⊥ ⊥ ((lastD flatMatter.z : ℝ) : EReal) ⊥
     bot_le bot_le (le_refl _) bot_le⟩

/-- For a strictly increasing list, the head is at most the last element. -/
theorem chain_head_le_lastD (x0 : ℝ) (l : List ℝ)
    (h : List.Chain' (· < ·) (x0 :: l)) : x0 ≤ lastD (x0 :: l) := by
  induction l generalizing x0 with
  | nil => simp [lastD]
  | cons x1 t ih =>
    have h1 : x0 < x1 := (List.chain'_cons.mp h).1
    have h2 := ih x1 (List.chain'_cons.mp h).2
    have hl : lastD (x0 :: x1 :: t) = lastD (x1 :: t) := by
      simp [lastD, List.getLast?_cons_cons]
    rw [hl]
    exact le_trans (le_of_lt h1) h2

/-- Queries strictly left of the first knot clamp to the first value. -/
theorem interp_lt_head : ∀ (xs fs : List ℝ) (x : ℝ),
    xs.length = fs.length → xs ≠ [] → x < headD0 xs →
    interp x xs fs = headD0 fs
  | [], _, _, _, hne, _ => absurd rfl hne
  | [_], [f0], _, _, _, _ => by simp [interp, headD0]
  | [_], [], _, hlen, _, _ => by simp at hlen
  | [_], _ :: _ :: _, _, hlen, _, _ => by simp at hlen
  | _ :: _ :: _, [], _, hlen, _, _ => by simp at hlen
  | _ :: _ :: _, [_], _, hlen, _, _ => by simp at hlen
  | x0 :: x1 :: t, f0 :: f1 :: u, x, _, _, hx => by
      simp only [headD0, List.head?_cons, Option.getD_some] at hx ⊢
      simp only [interp]
      rw [if_pos hx]

/-- Querying exactly at the first knot of a sorted table returns the first
value. -/
theorem interp_at_head : ∀ (xs fs : List ℝ),
    xs.length = fs.length → xs ≠ [] → List.Chain' (· < ·) xs →
    interp (headD0 xs) xs fs = headD0 fs
  | [], _, _, hne, _ => absurd rfl hne
  | [_], [f0], _, _, _ => by simp [interp, headD0]
  | [_], [], hlen, _, _ => by simp at hlen
  | [_], _ :: _ :: _, hlen, _, _ => by simp at hlen
  | _ :: _ :: _, [], hlen, _, _ => by simp at hlen
  | _ :: _ :: _, [_], hlen, _, _ => by simp at hlen
  | x0 :: x1 :: t, f0 :: f1 :: u, _, _, hc => by
      have h01 : x0 < x1 := (List.chain'_cons.mp hc).1
      simp only [headD0, List.head?_cons, Option.getD_some]
      simp only [interp]
      rw [if_neg (lt_irrefl x0), if_pos (le_of_lt h01)]
      simp [sub_self]

/-- Queries strictly right of the last knot of a sorted table clamp to the
last value. -/
theorem interp_gt_last : ∀ (xs fs : List ℝ) (x : ℝ),
    xs.length = fs.length → List.Chain' (· < ·) xs →
    lastD xs < x → interp x xs fs = lastD fs
  | [], [], _, _, _, _ => by simp [interp, lastD]
  | [], _ :: _, _, hlen, _, _ => by simp at hlen
  | [_], [f0], _, _, _, _ => by simp [interp, lastD]
  | [_], [], _, hlen, _, _ => by simp at hlen
  | [_], _ :: _ :: _, _, hlen, _, _ => by simp at hlen
  | _ :: _ :: _, [], _, hlen, _, _ => by simp at hlen
  | _ :: _ :: _, [_], _, hlen, _, _ => by simp at hlen
  | x0 :: x1 :: t, f0 :: f1 :: u, x, hlen, hc, hx => by
      have hc' : List.Chain' (· < ·) (x1 :: t) := (List.chain'_cons.mp hc).2
      have h01 : x0 < x1 := (List.chain'_cons.mp hc).1
      have hlx : lastD (x0 :: x1 :: t) = lastD (x1 :: t) := by
        simp [lastD, List.getLast?_cons_cons]
      rw [hlx] at hx
      have hx1 : x1 ≤ lastD (x1 :: t) := chain_head_le_lastD x1 t hc'
      have hgt1 : x1 < x := lt_of_le_of_lt hx1 hx
      have hgt0 : x0 < x := lt_trans h01 hgt1
      have hlf : lastD (f0 :: f1 :: u) = lastD (f1 :: u) := by
        simp [lastD, List.getLast?_cons_cons]
      rw [hlf]
      simp only [interp]
      rw [if_neg (not_lt.mpr (le_of_lt hgt0)), if_neg (not_le.mpr hgt1)]
      exact interp_gt_last (x1 :: t) (f1 :: u) x (by simpa using hlen) hc' hx

/-- Inside a doubly sorted table, a query strictly right of the first knot
interpolates strictly above the first value. -/
theorem interp_gt_head : ∀ (xs fs : List ℝ) (x : ℝ),
    xs.length = fs.length → List.Chain' (· < ·) xs → List.Chain' (· < ·) fs →
    headD0 xs < x → x ≤ lastD xs → headD0 fs < interp x xs fs
  | [], _, _, _, _, _, hx, hx2 => by
      simp [headD0, lastD] at hx hx2
      exact absurd (lt_of_lt_of_le hx hx2) (lt_irrefl 0)
  | [x0], [f0], _, _, _, _, hx, hx2 => by
      simp [headD0, lastD] at hx hx2
      exact absurd (lt_of_lt_of_le hx hx2) (lt_irrefl x0)
  | [_], [], _, hlen, _, _, _, _ => by simp at hlen
  | [_], _ :: _ :: _, _, hlen, _, _, _, _ => by simp at hlen
  | _ :: _ :: _, [], _, hlen, _, _, _, _ => by simp at hlen
  | _ :: _ :: _, [_], _, hlen, _, _, _, _ => by simp at hlen
  | x0 :: x1 :: t, f0 :: f1 :: u, x, hlen, hc1, hc2, hx, hx2 => by
      have h01 : x0 < x1 := (List.chain'_cons.mp hc1).1
      have hf01 : f0 < f1 := (List.chain'_cons.mp hc2).1
      have hc1' : List.Chain' (· < ·) (x1 :: t) := (List.chain'_cons.mp hc1).2
      have hc2' : List.Chain' (· < ·) (f1 :: u) := (List.chain'_cons.mp hc2).2
      simp only [headD0, List.head?_cons, Option.getD_some] at hx ⊢
      have hlx : lastD (x0 :: x1 :: t) = lastD (x1 :: t) := by
        simp [lastD, List.getLast?_cons_cons]
      rw [hlx] at hx2
      simp only [interp]
      rw [if_neg (not_lt.mpr (le_of_lt hx))]
      by_cases hle : x ≤ x1
      · rw [if_pos hle]
        have hpos : 0 < (f1 - f0) * (x - x0) / (x1 - x0) :=
          div_pos (mul_pos (sub_pos.mpr hf01) (sub_pos.mpr hx)) (sub_pos.mpr h01)
        linarith
      · rw [if_neg hle]
        have hrec := interp_gt_head (x1 :: t) (f1 :: u) x (by simpa using hlen)
          hc1' hc2' (by simpa [headD0] using not_le.mp hle) hx2
        simp only [headD0, List.head?_cons, Option.getD_some] at hrec
        linarith

/-- Round trip of the two linear interpolations over the same doubly sorted
table: interpolating forward and then backward recovers the query exactly,
for queries inside the tabulated range. -/
theorem interp_round : ∀ (xs fs : List ℝ) (x : ℝ),
    xs.length = fs.length → List.Chain' (· < ·) xs → List.Chain' (· < ·) fs →
    xs ≠ [] → headD0 xs ≤ x → x ≤ lastD xs →
    interp (interp x xs fs) fs xs = x
  | [], _, _, _, _, _, hne, _, _ => absurd rfl hne
  | [x0], [f0], x, _, _, _, _, h1, h2 => by
      simp only [headD0, List.head?_cons, Option.getD_some] at h1
      simp only [lastD, List.getLast?_singleton, Option.getD_some] at h2
      have hx : x = x0 := le_antisymm h2 h1
      simp [interp, hx]
  | [_], [], _, hlen, _, _, _, _, _ => by simp at hlen
  | [_], _ :: _ :: _, _, hlen, _, _, _, _, _ => by simp at hlen
  | _ :: _ :: _, [], _, hlen, _, _, _, _, _ => by simp at hlen
  | _ :: _ :: _, [_], _, hlen, _, _, _, _, _ => by simp at hlen
  | x0 :: x1 :: t, f0 :: f1 :: u, x, hlen, hc1, hc2, _, h1, h2 => by
      have h01 : x0 < x1 := (List.chain'_cons.mp hc1).1
      have hf01 : f0 < f1 := (List.chain'_cons.mp hc2).1
      have hc1' : List.Chain' (· < ·) (x1 :: t) := (List.chain'_cons.mp hc1).2
      have hc2' : List.Chain' (· < ·) (f1 :: u) := (List.chain'_cons.mp hc2).2
      have hne1 : x1 - x0 ≠ 0 := sub_ne_zero.mpr (ne_of_gt h01)
      have hnef : f1 - f0 ≠ 0 := sub_ne_zero.mpr (ne_of_gt hf01)
      simp only [headD0, List.head?_cons, Option.getD_some] at h1
      have hlx : lastD (x0 :: x1 :: t) = lastD (x1 :: t) := by
        simp [lastD, List.getLast?_cons_cons]
      rw [hlx] at h2
      by_cases hle : x ≤ x1
      · have hfwd : interp x (x0 :: x1 :: t) (f0 :: f1 :: u)
            = f0 + (f1 - f0) * (x - x0) / (x1 - x0) := by
          simp only [interp]
          rw [if_neg (not_lt.mpr h1), if_pos hle]
        rw [hfwd]
        have hd0 : 0 ≤ (f1 - f0) * (x - x0) / (x1 - x0) :=
          div_nonneg (mul_nonneg (le_of_lt (sub_pos.mpr hf01)) (sub_nonneg.mpr h1))
            (le_of_lt (sub_pos.mpr h01))
        have hdle : (f1 - f0) * (x - x0) / (x1 - x0) ≤ f1 - f0 := by
          rw [mul_div_assoc]
          calc (f1 - f0) * ((x - x0) / (x1 - x0))
              ≤ (f1 - f0) * 1 := by
                apply mul_le_mul_of_nonneg_left _ (le_of_lt (sub_pos.mpr hf01))
                exact (div_le_one (sub_pos.mpr h01)).mpr (by linarith)
            _ = f1 - f0 := mul_one _
        simp only [interp]
        rw [if_neg (by push_neg; linarith), if_pos (by linarith)]
        field_simp
        ring
      · have hx1 : x1 < x := not_le.mp hle
        have hfwd : interp x (x0 :: x1 :: t) (f0 :: f1 :: u)
            = interp x (x1 :: t) (f1 :: u) := by
          simp only [interp]
          rw [if_neg (not_lt.mpr h1), if_neg hle]
        rw [hfwd]
        have hdgt : f1 < interp x (x1 :: t) (f1 :: u) := by
          have := interp_gt_head (x1 :: t) (f1 :: u) x (by simpa using hlen)
            hc1' hc2' (by simpa [headD0] using hx1) h2
          simpa [headD0] using this
        have hbwd : interp (interp x (x1 :: t) (f1 :: u)) (f0 :: f1 :: u) (x0 :: x1 :: t)
            = interp (interp x (x1 :: t) (f1 :: u)) (f1 :: u) (x1 :: t) := by
          simp only [interp]
          rw [if_neg (by push_neg; linarith), if_neg (by push_neg; linarith)]
        rw [hbwd]
        exact interp_round (x1 :: t) (f1 :: u) x (by simpa using hlen) hc1' hc2'
          (by simp) (by simp [headD0]; linarith) h2

/-- Claim C7: out-of-range queries to `z2Dc`, `z2DL` and `DL2z` clamp to the
boundary sample's value (flat extrapolation at the nearest tabulated end);
the query functions are total, so no error is possible. -/
theorem claim_C7 (c : Cosmology)
    (hcz : List.Chain' (· < ·) c.z) (hcDL : List.Chain' (· < ·) c.DL)
    (hne : c.z ≠ []) (hlen : c.z.length = c.Dc.length) :
    (∀ x, x < headD0 c.z → c.z2Dc x = headD0 c.Dc) ∧
    (∀ x, lastD c.z < x → c.z2Dc x = lastD c.Dc) ∧
    (∀ x, x < headD0 c.z → c.z2DL x = headD0 c.DL / (c.unit_mod : ℝ)) ∧
    (∀ x, lastD c.z < x → c.z2DL x = lastD c.DL / (c.unit_mod : ℝ)) ∧
    (∀ d, d * (c.unit_mod : ℝ) < headD0 c.DL → c.DL2z d = headD0 c.z) ∧
    (∀ d, lastD c.DL < d * (c.unit_mod : ℝ) → c.DL2z d = lastD c.z) := by
  have hlenDL : c.DL.length = c.z.length := by
    simp only [Cosmology.DL, List.length_zipWith, ← hlen, min_self]
  have hneDL : c.DL ≠ [] := by
    intro h
    rw [h] at hlenDL
    exact hne (List.length_eq_zero.mp hlenDL.symm)
  refine ⟨fun x hx => ?_, fun x hx => ?_, fun x hx => ?_, fun x hx => ?_,
    fun d hd => ?_, fun d hd => ?_⟩
  · exact interp_lt_head c.z c.Dc x hlen hne hx
  · exact interp_gt_last c.z c.Dc x hlen hcz hx
  · unfold Cosmology.z2DL
    rw [interp_lt_head c.z c.DL x hlenDL.symm hne hx]
  · unfold Cosmology.z2DL
    rw [interp_gt_last c.z c.DL x hlenDL.symm hcz hx]
  · exact interp_lt_head c.DL c.z _ hlenDL hneDL hd
  · exact interp_gt_last c.DL c.z _ hlenDL hcDL hd

/-- Claim C7 witness: instantiated at the matter-dominated test table. -/
theorem claim_C7_witness :
    (∀ x, x < headD0 flatMatter.z → flatMatter.z2Dc x = headD0 flatMatter.Dc) ∧
    (∀ x, lastD flatMatter.z < x → flatMatter.z2Dc x = lastD flatMatter.Dc) ∧
    (∀ x, x < headD0 flatMatter.z →
      flatMatter.z2DL x = headD0 flatMatter.DL / (flatMatter.unit_mod : ℝ)) ∧
    (∀ x, lastD flatMatter.z < x →
      flatMatter.z2DL x = lastD flatMatter.DL / (flatMatter.unit_mod : ℝ)) ∧
    (∀ d, d * (flatMatter.unit_mod : ℝ) < headD0 flatMatter.DL →
      flatMatter.DL2z d = headD0 flatMatter.z) ∧
    (∀ d, lastD flatMatter.DL < d * (flatMatter.unit_mod : ℝ) →
      flatMatter.DL2z d = lastD flatMatter.z) :=
  claim_C7 flatMatter (by simp [flatMatter]) (by simp [Cosmology.DL, flatMatter])
    (by simp [flatMatter]) (by simp [flatMatter])

/-- `dDc/dz` is non-negative whenever the stored `c/Ho` is. -/
theorem dDcdz_nonneg (c : Cosmology) (hcH : 0 ≤ c.c_over_Ho) (z : ℝ) (b : Bool) :
    0 ≤ c.dDcdz z b := by
  have h0 : (0 : ℝ) ≤ (c.c_over_Ho : ℝ) := by exact_mod_cast hcH
  have hE : 0 ≤ c.z2E z := Real.sqrt_nonneg _
  have hM : (0 : ℝ) ≤ ((MPC_CGS : ℚ) : ℝ) := by
    rw [Rat.cast_nonneg]
    norm_num [MPC_CGS, MPC_SI, PC_SI]
  cases b with
  | false => simpa [Cosmology.dDcdz] using div_nonneg h0 hE
  | true => simpa [Cosmology.dDcdz] using div_nonneg (div_nonneg h0 hE) hM

/-- `dVc/dz` is non-negative whenever the stored `c/Ho` is. -/
theorem dVcdz_nonneg (c : Cosmology) (hcH : 0 ≤ c.c_over_Ho) (z Dc : ℝ) :
    0 ≤ c.dVcdz z Dc := by
  have h1 := dDcdz_nonneg c hcH z false
  simp only [Cosmology.dVcdz]
  exact mul_nonneg (mul_nonneg (by positivity) (sq_nonneg _)) h1

/-- Appending keeps the head of a nonempty list. -/
theorem head?_append_of_head? (l l' : List ℝ) (a : ℝ) (h : l.head? = some a) :
    (l ++ l').head? = some a := by
  cases l with
  | nil => cases h
  | cons b t => simpa using h

/-- Appending one element to a chain extends it when the new element is
related to the old last element. -/
theorem chain'_append_singleton (R : ℝ → ℝ → Prop) (l : List ℝ) (a : ℝ)
    (hc : List.Chain' R l) (h : ∀ x, l.getLast? = some x → R x a) :
    List.Chain' R (l ++ [a]) := by
  apply List.chain'_append.mpr
  refine ⟨hc, List.chain'_singleton a, ?_⟩
  intro x hx y hy
  simp only [List.head?_cons, Option.mem_def, Option.some.injEq] at hy
  subst hy
  exact h x (Option.mem_def.mp hx)

/-- One unfolding of the loop, with the appended values abstracted. -/
theorem extendLoop_step_exists (c : Cosmology) (mDL mDc mz mVc : EReal)
    (dz z Dc Vc DL : ℝ) (fuel : ℕ)
    (hcond : (Dc : EReal) < mDc ∨ (DL : EReal) < mDL ∨ (z : EReal) < mz
      ∨ (Vc : EReal) < mVc) :
    ∃ nz nDc nVc nDL,
      Cosmology.extendLoop mDL mDc mz mVc dz (fuel + 1) c z Dc Vc DL =
        Cosmology.extendLoop mDL mDc mz mVc dz fuel
          { c with z := c.z ++ [nz], Dc := c.Dc ++ [nDc], Vc := c.Vc ++ [nVc] }
          nz nDc nVc nDL :=
  ⟨_, _, _, _, extendLoop_step c mDL mDc mz mVc dz z Dc Vc DL fuel hcond⟩

/-- One unfolding of the loop, with the appended values abstracted and
bounded: the new redshift is strictly larger, the new distance and volume at
least as large, provided the step is positive and `c/Ho` non-negative. -/
theorem extendLoop_step_bounds (c : Cosmology) (mDL mDc mz mVc : EReal)
    (dz z Dc Vc DL : ℝ) (fuel : ℕ) (hdz : 0 < dz) (hcH : 0 ≤ c.c_over_Ho)
    (hcond : (Dc : EReal) < mDc ∨ (DL : EReal) < mDL ∨ (z : EReal) < mz
      ∨ (Vc : EReal) < mVc) :
    ∃ nz nDc nVc nDL, z < nz ∧ Dc ≤ nDc ∧ Vc ≤ nVc ∧
      Cosmology.extendLoop mDL mDc mz mVc dz (fuel + 1) c z Dc Vc DL =
        Cosmology.extendLoop mDL mDc mz mVc dz fuel
          { c with z := c.z ++ [nz], Dc := c.Dc ++ [nDc], Vc := c.Vc ++ [nVc] }
          nz nDc nVc nDL := by
  have hd1 := dDcdz_nonneg c hcH z false
  have hd2 := dDcdz_nonneg c hcH (z + dz) false
  have hv1 := dVcdz_nonneg c hcH z Dc
  have hv2 := dVcdz_nonneg c hcH (z + dz)
    (Dc + 0.5 * (c.dDcdz z + c.dDcdz (z + dz)) * dz)
  refine ⟨_, _, _, _, ?_, ?_, ?_,
    extendLoop_step c mDL mDc mz mVc dz z Dc Vc DL fuel hcond⟩
  · linarith
  · have : 0 ≤ 0.5 * (c.dDcdz z + c.dDcdz (z + dz)) * dz :=
      mul_nonneg (mul_nonneg (by norm_num) (by linarith)) hdz.le
    linarith
  · have : 0 ≤ 0.5 * (c.dVcdz z Dc
        + c.dVcdz (z + dz) (Dc + 0.5 * (c.dDcdz z + c.dDcdz (z + dz)) * dz)) * dz :=
      mul_nonneg (mul_nonneg (by norm_num) (by linarith)) hdz.le
    linarith

/-- The loop only ever appends to the three sample arrays. -/
theorem extendLoop_append : ∀ (fuel : ℕ) (mDL mDc mz mVc : EReal) (dz : ℝ)
    (c : Cosmology) (z Dc Vc DL : ℝ), ∃ t u v,
    (Cosmology.extendLoop mDL mDc mz mVc dz fuel c z Dc Vc DL).z = c.z ++ t ∧
    (Cosmology.extendLoop mDL mDc mz mVc dz fuel c z Dc Vc DL).Dc = c.Dc ++ u ∧
    (Cosmology.extendLoop mDL mDc mz mVc dz fuel c z Dc Vc DL).Vc = c.Vc ++ v := by
  intro fuel
  induction fuel with
  | zero =>
    intro mDL mDc mz mVc dz c z Dc Vc DL
    exact ⟨[], [], [], by simp [Cosmology.extendLoop], by simp [Cosmology.extendLoop],
      by simp [Cosmology.extendLoop]⟩
  | succ n ih =>
    intro mDL mDc mz mVc dz c z Dc Vc DL
    by_cases hcond : (Dc : EReal) < mDc ∨ (DL : EReal) < mDL ∨ (z : EReal) < mz
      ∨ (Vc : EReal) < mVc
    · obtain ⟨nz, nDc, nVc, nDL, heq⟩ :=
        extendLoop_step_exists c mDL mDc mz mVc dz z Dc Vc DL n hcond
      rw [heq]
      obtain ⟨t, u, v, ht, hu, hv⟩ := ih mDL mDc mz mVc dz
        { c with z := c.z ++ [nz], Dc := c.Dc ++ [nDc], Vc := c.Vc ++ [nVc] }
        nz nDc nVc nDL
      exact ⟨[nz] ++ t, [nDc] ++ u, [nVc] ++ v,
        by rw [ht]; simp, by rw [hu]; simp, by rw [hv]; simp⟩
    · rw [extendLoop_noop mDL mDc mz mVc dz (n + 1) c z Dc Vc DL hcond]
      exact ⟨[], [], [], by simp, by simp, by simp⟩

/-- The loop preserves the table invariant when started from the last
sample. -/
theorem extendLoop_inv (mDL mDc mz mVc : EReal) (dz : ℝ) (hdz : 0 < dz) :
    ∀ (fuel : ℕ) (c : Cosmology) (z Dc Vc DL : ℝ),
    c.Inv → lastD c.z = z → lastD c.Dc = Dc → lastD c.Vc = Vc →
    (Cosmology.extendLoop mDL mDc mz mVc dz fuel c z Dc Vc DL).Inv := by
  intro fuel
  induction fuel with
  | zero =>
    intro c z Dc Vc DL hInv _ _ _
    exact hInv
  | succ n ih =>
    intro c z Dc Vc DL hInv hLz hLDc hLVc
    by_cases hcond : (Dc : EReal) < mDc ∨ (DL : EReal) < mDL ∨ (z : EReal) < mz
      ∨ (Vc : EReal) < mVc
    · obtain ⟨hhz, hhDc, hhVc, hcz, hcDc, hcVc, hl1, hl2, hcH⟩ := hInv
      obtain ⟨nz, nDc, nVc, nDL, hz1, hDc1, hVc1, heq⟩ :=
        extendLoop_step_bounds c mDL mDc mz mVc dz z Dc Vc DL n hdz hcH hcond
      rw [heq]
      apply ih
      · refine ⟨head?_append_of_head? _ _ _ hhz, head?_append_of_head? _ _ _ hhDc,
          head?_append_of_head? _ _ _ hhVc, ?_, ?_, ?_,
          by simp [hl1], by simp [hl2], hcH⟩
        · refine chain'_append_singleton _ _ _ hcz (fun x hx => ?_)
          have hxz : x = z := by rw [← hLz]; simp [lastD, hx]
          rw [hxz]
          exact hz1
        · refine chain'_append_singleton _ _ _ hcDc (fun x hx => ?_)
          have hxDc : x = Dc := by rw [← hLDc]; simp [lastD, hx]
          rw [hxDc]
          exact hDc1
        · refine chain'_append_singleton _ _ _ hcVc (fun x hx => ?_)
          have hxVc : x = Vc := by rw [← hLVc]; simp [lastD, hx]
          rw [hxVc]
          exact hVc1
      · simp [lastD, List.getLast?_concat]
      · simp [lastD, List.getLast?_concat]
      · simp [lastD, List.getLast?_concat]
    · rw [extendLoop_noop mDL mDc mz mVc dz (n + 1) c z Dc Vc DL hcond]
      exact hInv

/-- Every reachable object satisfies the table invariant. -/
theorem reachable_inv (c : Cosmology) (h : Reachable c) : c.Inv := by
  induction h with
  | init Ho m r l u c hHo hm hr hl heq =>
    obtain ⟨-, hcH, -, -, -, -, -, hz, hDc, hVc, -, -⟩ :=
      Cosmology.init_ok Ho m r l u c heq
    refine ⟨by simp [hz], by simp [hDc], by simp [hVc], by simp [hz],
      by simp [hDc], by simp [hVc], by simp [hz, hDc], by simp [hz, hVc], ?_⟩
    rw [hcH]
    exact div_nonneg (by norm_num [C_CGS, C_SI]) hHo.le
  | extend c fuel mDL mDc mz mVc dz hdz hc ih =>
    exact extendLoop_inv mDL mDc mz mVc dz hdz fuel c _ _ _ _ ih rfl rfl rfl

/-- Claim C4: for every object reachable from a valid construction by
`extend` calls with positive step, the table starts at the seed `(0, 0, 0)`,
`z` is strictly increasing, `Dc` and `Vc` are non-decreasing, and every
further `extend` call is append-only: the existing entries form a prefix of
the arrays after the call. -/
theorem claim_C4 (c : Cosmology) (h : Reachable c) :
    (c.z.head? = some 0 ∧ c.Dc.head? = some 0 ∧ c.Vc.head? = some 0) ∧
    (List.Chain' (· < ·) c.z ∧ List.Chain' (· ≤ ·) c.Dc
      ∧ List.Chain' (· ≤ ·) c.Vc) ∧
    (∀ (fuel : ℕ) (mDL mDc mz mVc : EReal) (dz : ℝ), ∃ t u v,
      (Cosmology.extend c fuel mDL mDc mz mVc dz).z = c.z ++ t ∧
      (Cosmology.extend c fuel mDL mDc mz mVc dz).Dc = c.Dc ++ u ∧
      (Cosmology.extend c fuel mDL mDc mz mVc dz).Vc = c.Vc ++ v) := by
  obtain ⟨h1, h2, h3, h4, h5, h6, -, -, -⟩ := reachable_inv c h
  exact ⟨⟨h1, h2, h3⟩, ⟨h4, h5, h6⟩, fun fuel mDL mDc mz mVc dz =>
    extendLoop_append fuel mDL mDc mz mVc dz c _ _ _ _⟩

/-- Claim C4 witness: instantiated at the freshly constructed
matter-dominated table. -/
theorem claim_C4_witness :
    (flatMatter.z.head? = some 0 ∧ flatMatter.Dc.head? = some 0
      ∧ flatMatter.Vc.head? = some 0) ∧
    (List.Chain' (· < ·) flatMatter.z ∧ List.Chain' (· ≤ ·) flatMatter.Dc
      ∧ List.Chain' (· ≤ ·) flatMatter.Vc) ∧
    (∀ (fuel : ℕ) (mDL mDc mz mVc : EReal) (dz : ℝ), ∃ t u v,
      (Cosmology.extend flatMatter fuel mDL mDc mz mVc dz).z = flatMatter.z ++ t ∧
      (Cosmology.extend flatMatter fuel mDL mDc mz mVc dz).Dc = flatMatter.Dc ++ u ∧
      (Cosmology.extend flatMatter fuel mDL mDc mz mVc dz).Vc = flatMatter.Vc ++ v) :=
  claim_C4 flatMatter
    (Reachable.init C_CGS 1 0 0 "mpc" flatMatter (by norm_num [C_CGS, C_SI])
      (by norm_num) (by norm_num) (by norm_num) init_flatMatter)

/-- Claim C9: for every reachable table, querying the comoving and
luminosity distance at redshift 0 returns 0 (seed invariant). -/
theorem claim_C9 (c : Cosmology) (h : Reachable c) :
    c.z2Dc 0 = 0 ∧ c.z2DL 0 = 0 := by
  obtain ⟨hhz, hhDc, hhVc, hcz, -, -, hl1, hl2, -⟩ := reachable_inv c h
  have hzne : c.z ≠ [] := by
    intro hh
    rw [hh] at hhz
    cases hhz
  have hhz0 : headD0 c.z = 0 := by simp [headD0, hhz]
  have hhDc0 : headD0 c.Dc = 0 := by simp [headD0, hhDc]
  have hlenDL : c.DL.length = c.z.length := by
    simp only [Cosmology.DL, List.length_zipWith, ← hl1, min_self]
  have hhDL0 : headD0 c.DL = 0 := by
    cases hz : c.z with
    | nil => exact absurd hz hzne
    | cons a t =>
      cases hD : c.Dc with
      | nil =>
        rw [hD] at hhDc
        cases hhDc
      | cons b s =>
        rw [hz] at hhz
        rw [hD] at hhDc
        simp only [List.head?_cons, Option.some.injEq] at hhz hhDc
        simp [Cosmology.DL, hz, hD, headD0, hhz, hhDc]
  constructor
  · have hat := interp_at_head c.z c.Dc hl1 hzne hcz
    rw [hhz0] at hat
    unfold Cosmology.z2Dc
    rw [hat, hhDc0]
  · have hat := interp_at_head c.z c.DL hlenDL.symm hzne hcz
    rw [hhz0] at hat
    unfold Cosmology.z2DL
    rw [hat, hhDL0, zero_div]

/-- Claim C9 witness: instantiated at the freshly constructed
matter-dominated table. -/
theorem claim_C9_witness : flatMatter.z2Dc 0 = 0 ∧ flatMatter.z2DL 0 = 0 :=
  claim_C9 flatMatter
    (Reachable.init C_CGS 1 0 0 "mpc" flatMatter (by norm_num [C_CGS, C_SI])
      (by norm_num) (by norm_num) (by norm_num) init_flatMatter)

/-- With only the redshift bound active, enough fuel drives the last sampled
redshift into `[maxz, maxz + dz)`. -/
theorem extendLoop_z_last (maxz dz : ℝ) (_hdz : 0 < dz) :
    ∀ (fuel : ℕ) (c : Cosmology) (z Dc Vc DL : ℝ),
    lastD c.z = z → z < maxz → maxz ≤ z + fuel * dz →
    maxz ≤ lastD (Cosmology.extendLoop ⊥ ⊥ (maxz : EReal) ⊥ dz fuel c z Dc Vc DL).z ∧
    lastD (Cosmology.extendLoop ⊥ ⊥ (maxz : EReal) ⊥ dz fuel c z Dc Vc DL).z
      < maxz + dz := by
  intro fuel
  induction fuel with
  | zero =>
    intro c z Dc Vc DL hLz hlt hfuel
    exfalso
    push_cast at hfuel
    linarith
  | succ n ih =>
    intro c z Dc Vc DL hLz hlt hfuel
    have hcond : (Dc : EReal) < (⊥ : EReal) ∨ (DL : EReal) < (⊥ : EReal)
        ∨ (z : EReal) < (maxz : EReal) ∨ (Vc : EReal) < (⊥ : EReal) :=
      Or.inr (Or.inr (Or.inl (EReal.coe_lt_coe_iff.mpr hlt)))
    rw [extendLoop_step c ⊥ ⊥ (maxz : EReal) ⊥ dz z Dc Vc DL n hcond]
    have hLz' : lastD ({ c with
        z := c.z ++ [z + dz],
        Dc := c.Dc ++ [Dc + 0.5 * (c.dDcdz z + c.dDcdz (z + dz)) * dz],
        Vc := c.Vc ++ [Vc + 0.5 * (c.dVcdz z Dc
          + c.dVcdz (z + dz)
              (Dc + 0.5 * (c.dDcdz z + c.dDcdz (z + dz)) * dz)) * dz] } :
          Cosmology).z = z + dz := by
      simp [lastD, List.getLast?_concat]
    by_cases h2 : z + dz < maxz
    · apply ih _ _ _ _ _ hLz' h2
      push_cast at hfuel ⊢
      linarith
    · have hstop : ¬((Dc + 0.5 * (c.dDcdz z + c.dDcdz (z + dz)) * dz : ℝ) < (⊥ : EReal)
          ∨ (((1 + (z + dz)) * (Dc + 0.5 * (c.dDcdz z + c.dDcdz (z + dz)) * dz) : ℝ)
              : EReal) < (⊥ : EReal)
          ∨ ((z + dz : ℝ) : EReal) < (maxz : EReal)
          ∨ ((Vc + 0.5 * (c.dVcdz z Dc
              + c.dVcdz (z + dz)
                  (Dc + 0.5 * (c.dDcdz z + c.dDcdz (z + dz)) * dz)) * dz : ℝ)
              : EReal) < (⊥ : EReal)) := by
        push_neg
        exact ⟨bot_le, bot_le, EReal.coe_le_coe_iff.mpr (not_lt.mp h2), bot_le⟩
      rw [extendLoop_noop _ _ _ _ _ _ _ _ _ _ _ hstop, hLz']
      exact ⟨not_lt.mp h2, by linarith⟩

/-- With only the redshift bound active and enough fuel to reach it, extra
fuel does not change the result (the loop stops by itself). -/
theorem extendLoop_z_stable (maxz dz : ℝ) (_hdz : 0 < dz) :
    ∀ (fuel : ℕ) (extra : ℕ) (c : Cosmology) (z Dc Vc DL : ℝ),
    lastD c.z = z → maxz ≤ z + fuel * dz →
    Cosmology.extendLoop ⊥ ⊥ (maxz : EReal) ⊥ dz (fuel + extra) c z Dc Vc DL =
      Cosmology.extendLoop ⊥ ⊥ (maxz : EReal) ⊥ dz fuel c z Dc Vc DL := by
  intro fuel
  induction fuel with
  | zero =>
    intro extra c z Dc Vc DL hLz hfuel
    push_cast at hfuel
    have hstop : ¬((Dc : EReal) < (⊥ : EReal) ∨ (DL : EReal) < (⊥ : EReal)
        ∨ (z : EReal) < (maxz : EReal) ∨ (Vc : EReal) < (⊥ : EReal)) := by
      push_neg
      exact ⟨bot_le, bot_le, EReal.coe_le_coe_iff.mpr (by linarith), bot_le⟩
    rw [extendLoop_noop _ _ _ _ _ _ _ _ _ _ _ hstop,
      extendLoop_noop _ _ _ _ _ _ _ _ _ _ _ hstop]
  | succ n ih =>
    intro extra c z Dc Vc DL hLz hfuel
    by_cases hlt : z < maxz
    · have hcond : (Dc : EReal) < (⊥ : EReal) ∨ (DL : EReal) < (⊥ : EReal)
          ∨ (z : EReal) < (maxz : EReal) ∨ (Vc : EReal) < (⊥ : EReal) :=
        Or.inr (Or.inr (Or.inl (EReal.coe_lt_coe_iff.mpr hlt)))
      have hshift : n + 1 + extra = (n + extra) + 1 := by omega
      rw [hshift]
      rw [extendLoop_step c ⊥ ⊥ (maxz : EReal) ⊥ dz z Dc Vc DL (n + extra) hcond,
        extendLoop_step c ⊥ ⊥ (maxz : EReal) ⊥ dz z Dc Vc DL n hcond]
      apply ih
      · simp [lastD, List.getLast?_concat]
      · push_cast at hfuel ⊢
        linarith
    · have hstop : ¬((Dc : EReal) < (⊥ : EReal) ∨ (DL : EReal) < (⊥ : EReal)
          ∨ (z : EReal) < (maxz : EReal) ∨ (Vc : EReal) < (⊥ : EReal)) := by
        push_neg
        exact ⟨bot_le, bot_le, EReal.coe_le_coe_iff.mpr (not_lt.mp hlt), bot_le⟩
      rw [extendLoop_noop _ _ _ _ _ _ _ _ _ _ _ hstop,
        extendLoop_noop _ _ _ _ _ _ _ _ _ _ _ hstop]

/-- Claim C3: on a table whose last redshift is below 1, `extend` with
`max_z = 1` and step `DEFAULT_DZ = 1e-3` terminates — with fuel covering the
remaining distance the loop stops by itself and extra fuel changes nothing —
leaving a last redshift in `[1, 1 + 1e-3)`; a subsequent `extend` with
`max_z = 0.5` performs no iterations and returns the table unchanged. -/
theorem claim_C3 (c : Cosmology) (fuel : ℕ)
    (hlast : lastD c.z < 1)
    (hfuel : 1 ≤ lastD c.z + fuel * DEFAULT_DZ) :
    (1 ≤ lastD (Cosmology.extend c fuel ⊥ ⊥ ((1 : ℝ) : EReal) ⊥ DEFAULT_DZ).z ∧
      lastD (Cosmology.extend c fuel ⊥ ⊥ ((1 : ℝ) : EReal) ⊥ DEFAULT_DZ).z
        < 1 + DEFAULT_DZ) ∧
    (∀ extra : ℕ,
      Cosmology.extend c (fuel + extra) ⊥ ⊥ ((1 : ℝ) : EReal) ⊥ DEFAULT_DZ =
        Cosmology.extend c fuel ⊥ ⊥ ((1 : ℝ) : EReal) ⊥ DEFAULT_DZ) ∧
    (∀ fuel2 : ℕ,
      Cosmology.extend (Cosmology.extend c fuel ⊥ ⊥ ((1 : ℝ) : EReal) ⊥ DEFAULT_DZ)
          fuel2 ⊥ ⊥ ((1 / 2 : ℝ) : EReal) ⊥ DEFAULT_DZ =
        Cosmology.extend c fuel ⊥ ⊥ ((1 : ℝ) : EReal) ⊥ DEFAULT_DZ) := by
  have hdz : (0 : ℝ) < DEFAULT_DZ := by norm_num [DEFAULT_DZ]
  have hrun := extendLoop_z_last 1 DEFAULT_DZ hdz fuel c (lastD c.z) (lastD c.Dc)
    (lastD c.Vc) (lastD c.Dc * (1 + lastD c.z)) rfl hlast hfuel
  refine ⟨hrun, ?_, ?_⟩
  · intro extra
    exact extendLoop_z_stable 1 DEFAULT_DZ hdz fuel extra c (lastD c.z) (lastD c.Dc)
      (lastD c.Vc) (lastD c.Dc * (1 + lastD c.z)) rfl hfuel
  · intro fuel2
    have hrun1 : 1 ≤ lastD (Cosmology.extend c fuel ⊥ ⊥ ((1 : ℝ) : EReal) ⊥
        DEFAULT_DZ).z := hrun.1
    apply extendLoop_noop
    push_neg
    refine ⟨bot_le, bot_le, ?_, bot_le⟩
    exact EReal.coe_le_coe_iff.mpr (by linarith)

/-- Claim C3 witness: the fresh matter-dominated table, 1000 units of fuel
(exactly the number of iterations needed from redshift 0 to 1 with step
`1e-3`). -/
theorem claim_C3_witness :
    (1 ≤ lastD (Cosmology.extend flatMatter 1000 ⊥ ⊥ ((1 : ℝ) : EReal) ⊥ DEFAULT_DZ).z ∧
      lastD (Cosmology.extend flatMatter 1000 ⊥ ⊥ ((1 : ℝ) : EReal) ⊥ DEFAULT_DZ).z
        < 1 + DEFAULT_DZ) ∧
    (∀ extra : ℕ,
      Cosmology.extend flatMatter (1000 + extra) ⊥ ⊥ ((1 : ℝ) : EReal) ⊥ DEFAULT_DZ =
        Cosmology.extend flatMatter 1000 ⊥ ⊥ ((1 : ℝ) : EReal) ⊥ DEFAULT_DZ) ∧
    (∀ fuel2 : ℕ,
      Cosmology.extend
          (Cosmology.extend flatMatter 1000 ⊥ ⊥ ((1 : ℝ) : EReal) ⊥ DEFAULT_DZ)
          fuel2 ⊥ ⊥ ((1 / 2 : ℝ) : EReal) ⊥ DEFAULT_DZ =
        Cosmology.extend flatMatter 1000 ⊥ ⊥ ((1 : ℝ) : EReal) ⊥ DEFAULT_DZ) :=
  claim_C3 flatMatter 1000 (by norm_num [flatMatter, lastD])
    (by norm_num [flatMatter, lastD, DEFAULT_DZ])

/-- Claim C6: for a query inside the tabulated range of a table with
strictly increasing `z` and `DL` and a nonzero unit factor, the round trip
`DL2z (z2DL z)` returns `z` exactly (hence a fortiori within the
interpolation step size). -/
theorem claim_C6 (c : Cosmology) (zq : ℝ)
    (hcz : List.Chain' (· < ·) c.z) (hcDL : List.Chain' (· < ·) c.DL)
    (hlen : c.z.length = c.Dc.length) (hu : c.unit_mod ≠ 0) (hne : c.z ≠ [])
    (h1 : headD0 c.z ≤ zq) (h2 : zq ≤ lastD c.z) :
    c.DL2z (c.z2DL zq) = zq := by
  have hlenDL : c.DL.length = c.z.length := by
    simp only [Cosmology.DL, List.length_zipWith, ← hlen, min_self]
  have huR : (c.unit_mod : ℝ) ≠ 0 := by exact_mod_cast hu
  simp only [Cosmology.DL2z, Cosmology.z2DL]
  rw [div_mul_cancel₀ _ huR]
  exact interp_round c.z c.DL zq hlenDL.symm hcz hcDL hne h1 h2

/-- Claim C6 witness: instantiated at the matter-dominated test table with
query redshift 0. -/
theorem claim_C6_witness : flatMatter.DL2z (flatMatter.z2DL 0) = 0 :=
  claim_C6 flatMatter 0 (by simp [flatMatter]) (by simp [Cosmology.DL, flatMatter])
    (by simp [flatMatter]) (by norm_num [flatMatter, MPC_CGS, MPC_SI, PC_SI])
    (by simp [flatMatter]) (by simp [flatMatter, headD0]) (by simp [flatMatter, lastD])

/-- The matter-dominated test cosmology has `E(0) = 1`. -/
theorem flatMatter_z2E_zero : flatMatter.z2E 0 = 1 := by
  have h : flatMatter.z2E 0 = Real.sqrt 1 := by
    unfold Cosmology.z2E flatMatter
    norm_num
  rw [h, Real.sqrt_one]

/-- The matter-dominated test cosmology has `dDc/dz(0) = 1` (its `c/Ho` is
1). -/
theorem flatMatter_dDcdz_zero : flatMatter.dDcdz 0 = 1 := by
  unfold Cosmology.dDcdz
  rw [flatMatter_z2E_zero]
  simp [flatMatter]

/-- The megaparsec-to-centimetre factor exceeds 1. -/
theorem one_lt_MPC_CGS : (1 : ℝ) < ((MPC_CGS : ℚ) : ℝ) := by
  exact_mod_cast (by norm_num [MPC_CGS, MPC_SI, PC_SI] : (1 : ℚ) < MPC_CGS)

/-- Claim C1 (counterexample): for the default "mpc" distance unit the
log-space function differs from the log of the linear-space function — at
`z = 0`, `Dc = 1` on the matter-dominated test cosmology, `logdVcdz`
subtracts `3·log(MPC_CGS) > 0` that `log (dVcdz)` does not. -/
theorem claim_C1_cex :
    flatMatter.logdVcdz 0 1 ≠ Real.log (flatMatter.dVcdz 0 1) := by
  have hdv : flatMatter.dVcdz 0 1 = 4 * Real.pi := by
    simp [Cosmology.dVcdz, flatMatter_dDcdz_zero]
  have hlog : flatMatter.logdVcdz 0 1
      = Real.log (4 * Real.pi) - 3 * Real.log ((MPC_CGS : ℚ) : ℝ) := by
    unfold Cosmology.logdVcdz
    rw [flatMatter_dDcdz_zero]
    simp [flatMatter]
  rw [hdv, hlog]
  intro h
  have hpos : 0 < Real.log ((MPC_CGS : ℚ) : ℝ) := Real.log_pos one_lt_MPC_CGS
  linarith

/-- Claim C1 (amended): for positive `Dc`, positive `dDc/dz(z)` and positive
unit factor, `logdVcdz(z, Dc) = log(dVcdz(z, Dc)) − 3·log(unit_mod)`; the
two agree exactly when `unit_mod = 1` (a non-"mpc" distance unit) and differ
by the constant `3·log(MPC_CGS)` for the default "mpc" unit. -/
theorem claim_C1 (c : Cosmology) (z Dc : ℝ) (hDc : 0 < Dc)
    (hd : 0 < c.dDcdz z) :
    c.logdVcdz z Dc = Real.log (c.dVcdz z Dc) - 3 * Real.log (c.unit_mod : ℝ) := by
  have hDc0 : Dc ≠ 0 := ne_of_gt hDc
  have h4pi : (0 : ℝ) < 4 * Real.pi := by positivity
  have hhead : (0 : ℝ) < 4 * Real.pi * Dc ^ 2 := mul_pos h4pi (pow_pos hDc 2)
  simp only [Cosmology.logdVcdz, Cosmology.dVcdz, if_neg hDc0]
  rw [Real.log_mul (ne_of_gt hhead) (ne_of_gt hd),
    Real.log_mul (ne_of_gt h4pi) (pow_ne_zero 2 hDc0), Real.log_pow]
  push_cast
  ring

/-- Claim C1 witness: the amended relation instantiated at `z = 0`,
`Dc = 1` on the matter-dominated test cosmology. -/
theorem claim_C1_witness :
    flatMatter.logdVcdz 0 1
      = Real.log (flatMatter.dVcdz 0 1) - 3 * Real.log (flatMatter.unit_mod : ℝ) :=
  claim_C1 flatMatter 0 1 one_pos
    (by rw [flatMatter_dDcdz_zero]; norm_num)

end
